import Mathlib

/-!
Verification of the historical build-and-compare engine of
`docker-time-machine` (Go).  The Go code is shallowly embedded: pure
functions become Lean functions, the stateful run controller is modelled
by explicit threading of the working-tree state, external collaborators
(git, the Docker daemon) become oracle parameters, `float64` quantities
(megabyte sizes, build durations in seconds) become `ℚ`, `int64`/`int`
become `Int`/`Nat`, and Go panics become `Option.none`.
-/

namespace DTM

/-- Embeds `analyzer.LayerInfo` (pkg/analyzer/timemachine.go): one Docker
image layer, with its instruction string and its size in bytes and in MB. -/
structure LayerInfo where
  ident : String
  createdBy : String
  size : Int
  sizeMB : ℚ
deriving Repr, DecidableEq

/-- Embeds `analyzer.BuildResult` (pkg/analyzer/timemachine.go): the result
of building the image at one commit.  `date` is the author timestamp as an
integer (seconds). -/
structure BuildResult where
  commitHash : String
  commitMessage : String
  author : String
  date : Int
  imageSize : Int
  buildTime : ℚ
  layerCount : Int
  layers : List LayerInfo
  error : String
  sizeDiff : Int
deriving Repr, DecidableEq

instance : Inhabited BuildResult :=
  ⟨{ commitHash := "", commitMessage := "", author := "", date := 0,
     imageSize := 0, buildTime := 0, layerCount := 0, layers := [],
     error := "", sizeDiff := 0 }⟩

/-- Inner loop of the size-diff pass of `TimeMachine.Run`
(timemachine.go:161-166): starting at index `j`, scan forward for the first
successful result and set `results[i].SizeDiff = results[i].ImageSize -
results[j].ImageSize`, then break; if none is found the list is unchanged. -/
def diffScan (rs : List BuildResult) (i : Nat) (j : Nat) : List BuildResult :=
  if h : j < rs.length then
    if (rs.get ⟨j, h⟩).error = "" then
      rs.set i { rs.getD i default with
                 sizeDiff := (rs.getD i default).imageSize - (rs.getD j default).imageSize }
    else diffScan rs i (j + 1)
  else rs
termination_by rs.length - j

/-- One iteration of the outer loop of the size-diff pass
(timemachine.go:156-168): results with a non-empty `Error` are skipped,
otherwise the inner scan runs from `i+1`. -/
def diffStep (rs : List BuildResult) (i : Nat) : List BuildResult :=
  if (rs.getD i default).error ≠ "" then rs else diffScan rs i (i + 1)

/-- The outer loop of the size-diff pass, running `n` iterations with index
starting at `i` (in `Run`, `n` is the length and `i` starts at `0`). -/
def diffOuter (n : Nat) (rs : List BuildResult) (i : Nat) : List BuildResult :=
  match n with
  | 0 => rs
  | Nat.succ m => diffOuter m (diffStep rs i) (i + 1)

/-- The complete size-diff pass of `TimeMachine.Run` (timemachine.go:156-168)
over the accumulated result sequence (ordered newest-to-oldest). -/
def computeDiffs (rs : List BuildResult) : List BuildResult :=
  diffOuter rs.length rs 0

/-- Index of the first successful result at position `≥ j` (specification of
the inner scan). -/
def firstSuccFrom (rs : List BuildResult) (j : Nat) : Option Nat :=
  if h : j < rs.length then
    if (rs.get ⟨j, h⟩).error = "" then some j
    else firstSuccFrom rs (j + 1)
  else none
termination_by rs.length - j

/-- Specification of what the diff pass leaves at index `k`: failed results
are untouched; a successful result is compared against the first successful
result after it, and untouched when there is none. -/
def expectedAt (rs : List BuildResult) (k : Nat) : BuildResult :=
  let r := rs.getD k default
  if r.error ≠ "" then r
  else
    match firstSuccFrom rs (k + 1) with
    | some j => { r with sizeDiff := r.imageSize - (rs.getD j default).imageSize }
    | none => r

theorem diffScan_length (rs : List BuildResult) (i j : Nat) :
    (diffScan rs i j).length = rs.length := by
  induction j using diffScan.induct rs i with
  | case1 j h hsucc =>
    rw [diffScan]
    simp only [List.get_eq_getElem] at hsucc
    simp [h, hsucc]
  | case2 j h hsucc ih =>
    rw [diffScan]
    simp only [List.get_eq_getElem] at hsucc
    simp [h, hsucc, ih]
  | case3 j h =>
    rw [diffScan]
    simp [h]

/-- Scenario A of the spec: newest-first points p0 (100 MB, success),
p1 (100 MB, failed), p2 (80 MB, success), all with `SizeDiff` at its zero
value as produced by the build loop. -/
def scenA : List BuildResult :=
  [ { commitHash := "c0", commitMessage := "m0", author := "a", date := 2,
      imageSize := 104857600, buildTime := 1, layerCount := 1, layers := [],
      error := "", sizeDiff := 0 },
    { commitHash := "c1", commitMessage := "m1", author := "a", date := 1,
      imageSize := 104857600, buildTime := 0, layerCount := 0, layers := [],
      error := "build failed: x", sizeDiff := 0 },
    { commitHash := "c2", commitMessage := "m2", author := "a", date := 0,
      imageSize := 83886080, buildTime := 1, layerCount := 1, layers := [],
      error := "", sizeDiff := 0 } ]

/-- Embeds `object.Commit` as consumed by the analyzer: hash, full message,
author name, author timestamp (an integer, as seconds). -/
structure CommitInfo where
  hash : String
  message : String
  author : String
  date : Int
deriving Repr, DecidableEq

instance : Inhabited CommitInfo :=
  ⟨{ hash := "", message := "", author := "", date := 0 }⟩

/-- The per-commit date filter of `getCommits` (timemachine.go:250-256): a
commit is dropped when a since bound is configured and the author time is
strictly before it (`When.Before`), or when an until bound is configured
and the author time is strictly after it (`When.After`).  `none` models an
unconfigured (zero) bound. -/
def keepByDate (sinceTime untilTime : Option Int) (t : Int) : Bool :=
  !(match sinceTime with
    | some s => decide (t < s)
    | none => false) &&
  !(match untilTime with
    | some u => decide (u < t)
    | none => false)

/-- The `ForEach` accumulation loop of `getCommits` (timemachine.go:241-265):
a hash already seen is skipped; otherwise the hash is marked seen, then the
date filter runs, then the `MaxCommits` cap (positive cap with `count`
already at it) skips the commit; a retained commit is appended and bumps
`count`.  Skipping never stops the iteration. -/
def getCommitsGo (sinceTime untilTime : Option Int) (maxC : Int) :
    List CommitInfo → List String → Nat → List CommitInfo
  | [], _, _ => []
  | c :: rest, seen, count =>
    if c.hash ∈ seen then getCommitsGo sinceTime untilTime maxC rest seen count
    else if !keepByDate sinceTime untilTime c.date then
      getCommitsGo sinceTime untilTime maxC rest (c.hash :: seen) count
    else if 0 < maxC ∧ maxC ≤ (count : Int) then
      getCommitsGo sinceTime untilTime maxC rest (c.hash :: seen) count
    else c :: getCommitsGo sinceTime untilTime maxC rest (c.hash :: seen) (count + 1)

/-- `getCommits` (timemachine.go:194-272) after reference resolution: the
stream is what `repo.Log` yields in ancestry order. -/
def getCommits (sinceTime untilTime : Option Int) (maxC : Int)
    (stream : List CommitInfo) : List CommitInfo :=
  getCommitsGo sinceTime untilTime maxC stream [] 0

/-- Specification helper: first-occurrence de-duplication by commit hash,
given the hashes already seen. -/
def dedupByHash (seen : List String) : List CommitInfo → List CommitInfo
  | [] => []
  | c :: rest =>
    if c.hash ∈ seen then dedupByHash seen rest
    else c :: dedupByHash (c.hash :: seen) rest

/-- Specification helper: the `MaxCommits` cap with `k` slots already used;
a positive cap takes a prefix, any other value is no cap. -/
def capCommits (maxC : Int) (k : Nat) (l : List CommitInfo) : List CommitInfo :=
  if 0 < maxC then l.take (maxC.toNat - k) else l

/-- `findBloatCommit` (timemachine.go:1127-1139): scan for the successful
result with the strictly largest positive `SizeDiff` (strict `>` keeps the
first of equals); the Go pointer into the slice is modelled as the index
paired with the record. -/
def findBloatGo : List BuildResult → Nat → Int → Option (Nat × BuildResult) →
    Option (Nat × BuildResult)
  | [], _, _, best => best
  | r :: rest, i, maxInc, best =>
    if r.error = "" ∧ maxInc < r.sizeDiff then
      findBloatGo rest (i + 1) r.sizeDiff (some (i, r))
    else findBloatGo rest (i + 1) maxInc best

def findBloatCommit (rs : List BuildResult) : Option (Nat × BuildResult) :=
  findBloatGo rs 0 0 none

/-- `findOptimizationCommit` (timemachine.go:1141-1153): the successful
result with the strictly most negative `SizeDiff`. -/
def findOptGo : List BuildResult → Nat → Int → Option (Nat × BuildResult) →
    Option (Nat × BuildResult)
  | [], _, _, best => best
  | r :: rest, i, maxDec, best =>
    if r.error = "" ∧ r.sizeDiff < maxDec then
      findOptGo rest (i + 1) r.sizeDiff (some (i, r))
    else findOptGo rest (i + 1) maxDec best

def findOptimizationCommit (rs : List BuildResult) : Option (Nat × BuildResult) :=
  findOptGo rs 0 0 none

/-- What the builder's `GetImageInfo` returns on success: total size in
bytes and the RootFS layer digests. -/
structure ImageInfo where
  size : Int
  rootFSLayers : List String
deriving Repr, DecidableEq

/-- One entry of the builder's `GetImageHistory` result. -/
structure HistoryLayer where
  ident : String
  createdBy : String
  size : Int
deriving Repr, DecidableEq

/-- The outcome of every external call one `analyzeCommit` invocation makes:
`worktreeErr` for `repo.Worktree()`, `checkoutErr` for the commit checkout,
`buildErr` for `BuildImage`, `elapsed` for the measured build duration in
seconds, `inspect` for `GetImageInfo`, `history` for `GetImageHistory`. -/
structure StepOracle where
  worktreeErr : Option String
  checkoutErr : Option String
  buildErr : Option String
  elapsed : ℚ
  inspect : Except String ImageInfo
  history : Except String (List HistoryLayer)
deriving Repr

/-- Go `strings.TrimPrefix`. -/
def trimPrefixGo (s p : String) : String :=
  if s.startsWith p then s.drop p.length else s

/-- `truncateLayerCommand` (timemachine.go:1162-1170): strip the
`/bin/sh -c ` and `#(nop) ` prefixes and surrounding whitespace; no
truncation, to preserve uniqueness for layer matching. -/
def truncateLayerCommand (cmd : String) : String :=
  (trimPrefixGo (trimPrefixGo cmd "/bin/sh -c ") "#(nop) ").trim

/-- `analyzeCommit` (timemachine.go:275-356) as a function of the commit and
the collaborator outcomes.  The result starts with the commit metadata and
zero numerics; each step failure sets `error` and returns immediately;
`buildTime` is measured right after a successful build, before inspection;
layers come from the best-effort history call, skipping empty layers. -/
def analyzeCommit (c : CommitInfo) (o : StepOracle) : BuildResult :=
  let result : BuildResult :=
    { commitHash := c.hash,
      commitMessage := ((c.message.splitOn "\n").headD "").trim,
      author := c.author, date := c.date,
      imageSize := 0, buildTime := 0, layerCount := 0, layers := [],
      error := "", sizeDiff := 0 }
  match o.worktreeErr with
  | some e => { result with error := "failed to get worktree: " ++ e }
  | none =>
  match o.checkoutErr with
  | some e => { result with error := "failed to checkout commit: " ++ e }
  | none =>
  match o.buildErr with
  | some e => { result with error := "build failed: " ++ e }
  | none =>
  let result := { result with buildTime := o.elapsed }
  match o.inspect with
  | .error e => { result with error := "failed to inspect image: " ++ e }
  | .ok info =>
  let result := { result with imageSize := info.size,
                              layerCount := (info.rootFSLayers.length : Int) }
  match o.history with
  | .error _ => result
  | .ok hist =>
      { result with layers :=
          (hist.filter (fun l => l.size != 0)).map (fun l =>
            { ident := l.ident, createdBy := truncateLayerCommand l.createdBy,
              size := l.size, sizeMB := (l.size : ℚ) / 1024 / 1024 }) }

/-- The worktree mutation performed by `analyzeCommit`: a successful
checkout leaves the commit's hash checked out; a worktree or checkout
failure leaves the worktree untouched. -/
def checkoutEffect (c : CommitInfo) (o : StepOracle) (wt : String) : String :=
  match o.worktreeErr with
  | some _ => wt
  | none =>
    match o.checkoutErr with
    | some _ => wt
    | none => c.hash

/-- The outcome of one `TimeMachine.Run`: the accumulated results after the
diff pass, the final worktree state, the diagnostics printed to stderr, and
the run's returned error (`none` = the `nil` return). -/
structure RunOutcome where
  results : List BuildResult
  worktree : String
  log : List String
  ret : Option String

/-- The build loop of `Run` (timemachine.go:134-151): every commit goes
through `analyzeCommit`; `Verbose` prints a build banner; a failure is
additionally printed only when `SkipFailed` is false and `Verbose` is on. -/
def runLoop (verbose skipFailed : Bool) (oracle : CommitInfo → StepOracle) :
    List CommitInfo → String → List BuildResult × String × List String
  | [], wt => ([], wt, [])
  | c :: rest, wt =>
    let r := analyzeCommit c (oracle c)
    let wt' := checkoutEffect c (oracle c) wt
    let banner := if verbose then ["building at commit " ++ c.hash] else []
    let failMsg :=
      if r.error ≠ "" ∧ skipFailed = false then
        (if verbose then ["build failed: " ++ r.error] else [])
      else []
    let rec' := runLoop verbose skipFailed oracle rest wt'
    (r :: rec'.1, rec'.2.1, banner ++ failMsg ++ rec'.2.2)

/-- `TimeMachine.Run` (timemachine.go:101-192) given the selected commits,
the per-commit collaborator outcomes, the resolved hash of the HEAD
reference captured before the loop (go-git restores a branch by name and a
detached HEAD by hash; both resolve to the captured hash, since builds add
no commits), and whether the restoration checkout succeeds.  An empty
selection is the `no commits found` error, returned before any worktree
mutation; otherwise the loop runs over every commit, the diff pass fills
the size deltas, and restoration is attempted unconditionally — its
failure is only a warning and `Run` still returns `nil`. -/
def run (verbose skipFailed : Bool) (originalHash : String)
    (commits : List CommitInfo) (oracle : CommitInfo → StepOracle)
    (restoreOk : Bool) (wt0 : String) : RunOutcome :=
  if commits.isEmpty then
    { results := [], worktree := wt0, log := [], ret := some "no commits found" }
  else
    let lp := runLoop verbose skipFailed oracle commits wt0
    { results := computeDiffs lp.1,
      worktree := if restoreOk then originalHash else lp.2.1,
      log := lp.2.2 ++ (if restoreOk then [] else
        ["Warning: failed to restore original branch"]),
      ret := none }

/-- `analyzer.LayerComparison` (timemachine.go:56-59): the `SizeByCommit` Go
map (8-char commit hash prefix → size in MB) as a function, `none` for an
absent key. -/
structure LayerComparison where
  layerCommand : String
  sizeByCommit : String → Option ℚ

/-- Go map assignment `m[k] = v`. -/
def mapPut (m : String → Option ℚ) (k : String) (v : ℚ) : String → Option ℚ :=
  fun x => if x = k then some v else m x

/-- The `result.CommitHash[:8]` map key of `buildLayerComparison`. -/
def hashKey (r : BuildResult) : String :=
  r.commitHash.take 8

/-- One collection loop of `buildLayerComparison` (timemachine.go:366-382):
append each layer's `CreatedBy` not yet collected (the Go set
`layerCommandSet` always holds exactly the members of `layerCommands`). -/
def addCommands (acc : List String) (layers : List LayerInfo) : List String :=
  layers.foldl (fun a l => if l.createdBy ∈ a then a else a ++ [l.createdBy]) acc

/-- `buildLayerComparison` (timemachine.go:359-411).  On an empty input the
Go code evaluates `validResults[1:]`, which panics (slice bounds out of
range `[1:0]`); the panic is modelled as `none`.  For each collected layer
command, the cell of a result is the size of the first layer of that result
with that command (the inner loop breaks on the first match), `-1` when
absent. -/
def buildLayerComparison (validResults : List BuildResult) :
    Option (List String × List LayerComparison) :=
  match validResults with
  | [] => none
  | first :: rest =>
    let layerCommands := rest.foldl (fun acc r => addCommands acc r.layers)
      (addCommands [] first.layers)
    some (layerCommands, layerCommands.map (fun cmd =>
      { layerCommand := cmd,
        sizeByCommit := (first :: rest).foldl (fun m r =>
          match r.layers.find? (fun l => l.createdBy == cmd) with
          | some l => mapPut m (hashKey r) l.sizeMB
          | none => mapPut m (hashKey r) (-1)) (fun _ => none) }))

/-- Embeds `cmd.RegistryResult` (cmd/analyze.go:290-300). -/
structure RegistryResult where
  tag : String
  digest : String
  created : Int
  size : Int
  sizeMB : ℚ
  layerCount : Int
  layers : List LayerInfo
  sizeDiff : Int
  error : String
deriving Repr, DecidableEq

/-- Embeds `cmd.RegistryLayerComparison` (cmd/analyze.go), `SizeByTag` as a
function, `none` for an absent key. -/
structure RegistryLayerComparison where
  layerCommand : String
  sizeByTag : String → Option ℚ

/-- `buildRegistryLayerComparison` (cmd/analyze.go:523-580): the registry
variant guards the empty input explicitly, and sums the sizes of all layers
of one result sharing a command into that command's cell (`-1` when the
command is absent from the result). -/
def buildRegistryLayerComparison (validResults : List RegistryResult) :
    List String × List RegistryLayerComparison :=
  match validResults with
  | [] => ([], [])
  | first :: rest =>
    let layerCommands := rest.foldl (fun acc r => addCommands acc r.layers)
      (addCommands [] first.layers)
    (layerCommands, layerCommands.map (fun cmd =>
      { layerCommand := cmd,
        sizeByTag := (first :: rest).foldl (fun m r =>
          let cell := r.layers.foldl (fun p l =>
            if l.createdBy == cmd then (p.1 + l.sizeMB, true) else p)
            ((0 : ℚ), false)
          if cell.2 then mapPut m r.tag cell.1
          else mapPut m r.tag (-1)) (fun _ => none) }))

/-- Embeds the thresholds of `bisect.Config` (unnamed/part_003:16-24):
`sizeThreshold` in MB, `timeThreshold` in seconds; zero disables each. -/
structure BisectConfig where
  sizeThreshold : ℚ
  timeThreshold : ℚ
deriving Repr, DecidableEq

/-- Embeds `bisect.Result` (unnamed/part_003:27-34). -/
structure BisectResult where
  commitHash : String
  commitMessage : String
  author : String
  date : Int
  sizeMB : ℚ
  buildTime : ℚ
deriving Repr, DecidableEq

/-- The threshold test of `FindRegression` (part_003:103-113): a successful
probe exceeds when a positive size threshold is strictly below the image
size in MB, or a positive time threshold is strictly below the build time. -/
def exceedsThreshold (cfg : BisectConfig) (r : BuildResult) : Bool :=
  (decide (0 < cfg.sizeThreshold) &&
      decide (cfg.sizeThreshold < (r.imageSize : ℚ) / 1024 / 1024)) ||
  (decide (0 < cfg.timeThreshold) && decide (cfg.timeThreshold < r.buildTime))

/-- The binary-search loop of `FindRegression` (part_003:86-125), probing
index `mid` through the oracle `f` (the `AnalyzeCommit` call).  A failed
build advances `left` past `mid` without recording a candidate; a
successful build over threshold records `mid` and moves `right` to
`mid - 1` (at `mid = 0` the Go `right` becomes `-1` and the loop exits with
the just-recorded candidate, modelled by returning it directly); a
successful build within threshold advances `left`.  `fuel` bounds the
iterations; every iteration strictly shrinks `right - left`, so the
`commits.length + 1` supplied by `findRegression` always suffices. -/
def findRegLoop (cfg : BisectConfig) (f : Nat → BuildResult) :
    Nat → Nat → Nat → Option Nat → Option Nat
  | 0, _, _, best => best
  | Nat.succ fuel, left, right, best =>
    if left ≤ right then
      let mid := (left + right) / 2
      let r := f mid
      if r.error ≠ "" then findRegLoop cfg f fuel (mid + 1) right best
      else if exceedsThreshold cfg r then
        if mid = 0 then some 0
        else findRegLoop cfg f fuel left (mid - 1) (some mid)
      else findRegLoop cfg f fuel (mid + 1) right best
    else best

/-- `FindRegression` (part_003:68-139): fewer than two commits is an error;
otherwise binary search over indices `0 .. len - 1` of the materialized
oldest-to-newest range; no recorded bad candidate reports
`no regression found`, otherwise the result is built from the recorded
commit and its probe. -/
def findRegression (cfg : BisectConfig) (commits : List CommitInfo)
    (f : Nat → BuildResult) : Except String BisectResult :=
  if commits.length < 2 then .error "need at least 2 commits to bisect"
  else
    match findRegLoop cfg f (commits.length + 1) 0 (commits.length - 1) none with
    | none => .error "no regression found in the commit range"
    | some k =>
      let c := commits.getD k default
      let r := f k
      .ok { commitHash := c.hash, commitMessage := c.message.trim,
            author := c.author, date := c.date,
            sizeMB := (r.imageSize : ℚ) / 1024 / 1024,
            buildTime := r.buildTime }

/-- Scenario B of the spec: size threshold 500 MB, no time threshold. -/
def cfgB : BisectConfig := ⟨500, 0⟩

/-- Scenario B commit range, oldest to newest. -/
def commitsB : List CommitInfo :=
  [⟨"c0", "m0", "a", 0⟩, ⟨"c1", "m1", "a", 1⟩,
   ⟨"c2", "m2", "a", 2⟩, ⟨"c3", "m3", "a", 3⟩]

/-- Scenario B image sizes in bytes: 300, 320, 600, 650 MB. -/
def sizesB : List Int := [314572800, 335544320, 629145600, 681574400]

/-- Scenario B probe oracle: every build succeeds in one second. -/
def fB : Nat → BuildResult := fun i =>
  { (default : BuildResult) with imageSize := sizesB.getD i 0, buildTime := 1 }

/-- A registry result whose layers duplicate one instruction identity
(`RUN x` appears with 10 MB and 12 MB). -/
def regDupResult : RegistryResult :=
  { tag := "v1", digest := "d", created := 0, size := 23068672, sizeMB := 22,
    layerCount := 2,
    layers := [⟨"l1", "RUN x", 10485760, 10⟩, ⟨"l2", "RUN x", 12582912, 12⟩],
    sizeDiff := 0, error := "" }

/-- A git-path build result whose layers duplicate one instruction identity
(`RUN x` appears with 10 MB and 12 MB). -/
def dupLayerResult : BuildResult :=
  { commitHash := "aaaabbbbcccc", commitMessage := "m", author := "a",
    date := 0, imageSize := 23068672, buildTime := 1, layerCount := 2,
    layers := [⟨"l1", "RUN x", 10485760, 10⟩, ⟨"l2", "RUN x", 12582912, 12⟩],
    error := "", sizeDiff := 0 }

/-- Specification helper: the cell value the registry path assigns for one
identity in one result — the sum of all matching layers' sizes, `-1` when
the identity is absent. -/
def sumCellValue (cmd : String) (r : RegistryResult) : ℚ :=
  if r.layers.any (fun l => l.createdBy == cmd) then
    ((r.layers.filter (fun l => l.createdBy == cmd)).map LayerInfo.sizeMB).sum
  else -1

/-- Specification helper: the cell value the git path assigns for one
identity in one result — the first matching layer's size, `-1` when the
identity is absent. -/
def firstCellValue (cmd : String) (r : BuildResult) : ℚ :=
  match r.layers.find? (fun l => l.createdBy == cmd) with
  | some l => l.sizeMB
  | none => -1

/-! ## MARKER: definitions above, theorems below -/

theorem getD_set_ne {α : Type} (l : List α) (i k : Nat) (x d : α) (hk : k ≠ i) :
    (l.set i x).getD k d = l.getD k d := by
  simp [List.getD_eq_getElem?_getD, List.getElem?_set_ne (by omega : i ≠ k)]

theorem getD_set_self {α : Type} (l : List α) (i : Nat) (x d : α) (hi : i < l.length) :
    (l.set i x).getD i d = x := by
  simp [List.getD_eq_getElem?_getD, List.getElem?_set_eq_of_lt x hi]

theorem getD_eq_get (l : List BuildResult) (i : Nat) (d : BuildResult) (hi : i < l.length) :
    l.getD i d = l.get ⟨i, hi⟩ := by
  simp [List.getD_eq_getElem?_getD, List.getElem?_eq_getElem hi]

theorem diffScan_eq (rs : List BuildResult) (i j : Nat) :
    diffScan rs i j =
      match firstSuccFrom rs j with
      | some k =>
          rs.set i { rs.getD i default with
                     sizeDiff := (rs.getD i default).imageSize - (rs.getD k default).imageSize }
      | none => rs := by
  induction j using diffScan.induct rs i with
  | case1 j h hsucc =>
    rw [diffScan, firstSuccFrom]
    simp only [List.get_eq_getElem] at hsucc
    simp [h, hsucc]
  | case2 j h hsucc ih =>
    rw [diffScan, firstSuccFrom]
    simp only [List.get_eq_getElem] at hsucc
    simp [h, hsucc, ih]
  | case3 j h =>
    rw [diffScan, firstSuccFrom]
    simp [h]

theorem diffStep_length (rs : List BuildResult) (i : Nat) :
    (diffStep rs i).length = rs.length := by
  unfold diffStep
  split
  · rfl
  · exact diffScan_length rs i (i + 1)

theorem diffStep_getD_ne (rs : List BuildResult) (i k : Nat) (hk : k ≠ i) :
    (diffStep rs i).getD k default = rs.getD k default := by
  unfold diffStep
  split
  · rfl
  · rw [diffScan_eq]
    cases firstSuccFrom rs (i + 1) with
    | none => rfl
    | some m => exact getD_set_ne rs i k _ default hk

theorem diffStep_error (rs : List BuildResult) (i k : Nat) :
    ((diffStep rs i).getD k default).error = (rs.getD k default).error := by
  by_cases hk : k = i
  · subst hk
    unfold diffStep
    split
    · rfl
    · rw [diffScan_eq]
      cases h : firstSuccFrom rs (k + 1) with
      | none => rfl
      | some m =>
        dsimp only
        by_cases hlen : k < rs.length
        · rw [getD_set_self _ _ _ _ hlen]
        · rw [List.set_eq_of_length_le (by omega)]
  · rw [diffStep_getD_ne rs i k hk]

theorem diffStep_imageSize (rs : List BuildResult) (i k : Nat) :
    ((diffStep rs i).getD k default).imageSize = (rs.getD k default).imageSize := by
  by_cases hk : k = i
  · subst hk
    unfold diffStep
    split
    · rfl
    · rw [diffScan_eq]
      cases h : firstSuccFrom rs (k + 1) with
      | none => rfl
      | some m =>
        dsimp only
        by_cases hlen : k < rs.length
        · rw [getD_set_self _ _ _ _ hlen]
        · rw [List.set_eq_of_length_le (by omega)]
  · rw [diffStep_getD_ne rs i k hk]

theorem firstSuccFrom_congr (rs rs' : List BuildResult) (j : Nat)
    (hlen : rs'.length = rs.length)
    (herr : ∀ m, ((rs'.getD m default).error = (rs.getD m default).error)) :
    firstSuccFrom rs' j = firstSuccFrom rs j := by
  induction j using firstSuccFrom.induct rs with
  | case1 j h hsucc =>
    have h' : j < rs'.length := by omega
    have e : (rs'.getD j default).error = (rs.getD j default).error := herr j
    rw [getD_eq_get rs' j default h', getD_eq_get rs j default h] at e
    simp only [List.get_eq_getElem] at e hsucc
    rw [firstSuccFrom.eq_def rs' j, firstSuccFrom.eq_def rs j]
    simp [h, h', hsucc, e]
  | case2 j h hsucc ih =>
    have h' : j < rs'.length := by omega
    have e : (rs'.getD j default).error = (rs.getD j default).error := herr j
    rw [getD_eq_get rs' j default h', getD_eq_get rs j default h] at e
    simp only [List.get_eq_getElem] at e hsucc
    rw [firstSuccFrom.eq_def rs' j, firstSuccFrom.eq_def rs j]
    simp [h, h', hsucc, e, ih]
  | case3 j h =>
    have h' : ¬ j < rs'.length := by omega
    rw [firstSuccFrom.eq_def rs' j, firstSuccFrom.eq_def rs j]
    simp [h, h']

theorem firstSuccFrom_ge (rs : List BuildResult) (j m : Nat)
    (h : firstSuccFrom rs j = some m) : j ≤ m := by
  induction j using firstSuccFrom.induct rs with
  | case1 j hlt hsucc =>
    rw [firstSuccFrom] at h
    simp only [List.get_eq_getElem] at hsucc
    simp [hlt, hsucc] at h
    omega
  | case2 j hlt hsucc ih =>
    rw [firstSuccFrom] at h
    simp only [List.get_eq_getElem] at hsucc
    simp [hlt, hsucc] at h
    have := ih h
    omega
  | case3 j hlt =>
    rw [firstSuccFrom] at h
    simp [hlt] at h

theorem expectedAt_diffStep (rs : List BuildResult) (i k : Nat) (hk : i < k) :
    expectedAt (diffStep rs i) k = expectedAt rs k := by
  unfold expectedAt
  have hrec : (diffStep rs i).getD k default = rs.getD k default :=
    diffStep_getD_ne rs i k (by omega)
  have hfs : firstSuccFrom (diffStep rs i) (k + 1) = firstSuccFrom rs (k + 1) :=
    firstSuccFrom_congr rs (diffStep rs i) (k + 1) (diffStep_length rs i)
      (fun m => diffStep_error rs i m)
  rw [hrec, hfs]
  cases h : firstSuccFrom rs (k + 1) with
  | none => rfl
  | some m =>
    simp only []
    rw [diffStep_getD_ne rs i m (by
      have : k + 1 ≤ m := firstSuccFrom_ge rs (k + 1) m h
      omega)]

theorem diffStep_getD_self (rs : List BuildResult) (i : Nat) (hi : i < rs.length) :
    (diffStep rs i).getD i default = expectedAt rs i := by
  unfold diffStep
  rw [expectedAt]
  by_cases he : (rs.getD i default).error ≠ ""
  · rw [if_pos he, if_pos he]
  · rw [if_neg he, if_neg he, diffScan_eq]
    cases h : firstSuccFrom rs (i + 1) with
    | none => rfl
    | some m =>
      dsimp only
      exact getD_set_self _ _ _ _ hi

theorem diffOuter_length (n : Nat) (rs : List BuildResult) (i : Nat) :
    (diffOuter n rs i).length = rs.length := by
  induction n generalizing rs i with
  | zero => rfl
  | succ m ih =>
    show (diffOuter m (diffStep rs i) (i + 1)).length = rs.length
    rw [ih (diffStep rs i) (i + 1)]
    exact diffStep_length rs i

theorem diffOuter_untouched (n : Nat) (rs : List BuildResult) (i k : Nat) (hk : k < i) :
    (diffOuter n rs i).getD k default = rs.getD k default := by
  induction n generalizing rs i with
  | zero => rfl
  | succ m ih =>
    show (diffOuter m (diffStep rs i) (i + 1)).getD k default = rs.getD k default
    rw [ih (diffStep rs i) (i + 1) (by omega)]
    exact diffStep_getD_ne rs i k (by omega)

theorem diffOuter_spec (n : Nat) (rs : List BuildResult) (i : Nat)
    (hn : i + n = rs.length) (k : Nat) (hik : i ≤ k) (hk : k < rs.length) :
    (diffOuter n rs i).getD k default = expectedAt rs k := by
  induction n generalizing rs i with
  | zero => omega
  | succ m ih =>
    show (diffOuter m (diffStep rs i) (i + 1)).getD k default = expectedAt rs k
    by_cases hki : k = i
    · subst hki
      rw [diffOuter_untouched m (diffStep rs k) (k + 1) k (by omega)]
      exact diffStep_getD_self rs k (by omega)
    · have h1 : (i + 1) + m = (diffStep rs i).length := by
        rw [diffStep_length]
        omega
      have h2 : i + 1 ≤ k := by omega
      have h3 : k < (diffStep rs i).length := by
        rw [diffStep_length]
        omega
      rw [ih (diffStep rs i) (i + 1) h1 h2]
      · exact expectedAt_diffStep rs i k (by omega)
      · exact h3

theorem computeDiffs_length (rs : List BuildResult) :
    (computeDiffs rs).length = rs.length :=
  diffOuter_length rs.length rs 0

theorem computeDiffs_getD (rs : List BuildResult) (k : Nat) (hk : k < rs.length) :
    (computeDiffs rs).getD k default = expectedAt rs k :=
  diffOuter_spec rs.length rs 0 (by omega) k (by omega) hk

theorem firstSuccFrom_is_some (rs : List BuildResult) (k : Nat)
    (hk : k < rs.length) (hsucc : (rs.getD k default).error = "") :
    ∀ j, j ≤ k →
      (∀ m, j ≤ m → m < k → (rs.getD m default).error ≠ "") →
      firstSuccFrom rs j = some k := by
  intro j
  induction j using firstSuccFrom.induct rs with
  | case1 j h he =>
    intro hjk hmin
    have heD : (rs.getD j default).error = "" := by
      rw [getD_eq_get rs j default h]
      exact he
    rw [firstSuccFrom.eq_def]
    simp only [List.get_eq_getElem] at he
    simp [h, he]
    rcases Nat.lt_or_ge j k with hlt | hge
    · exact absurd heD (hmin j (le_refl j) hlt)
    · omega
  | case2 j h he ih =>
    intro hjk hmin
    have heD : (rs.getD j default).error ≠ "" := by
      rw [getD_eq_get rs j default h]
      exact he
    rw [firstSuccFrom.eq_def]
    simp only [List.get_eq_getElem] at he
    simp [h, he]
    have hjk' : j < k := by
      rcases Nat.eq_or_lt_of_le hjk with hEq | hlt
      · exact absurd (hEq ▸ hsucc) heD
      · exact hlt
    exact ih (by omega) (fun m hm1 hm2 => hmin m (by omega) hm2)
  | case3 j h =>
    intro hjk hmin
    omega

theorem firstSuccFrom_is_none (rs : List BuildResult) :
    ∀ j, (∀ m, j ≤ m → m < rs.length → (rs.getD m default).error ≠ "") →
      firstSuccFrom rs j = none := by
  intro j
  induction j using firstSuccFrom.induct rs with
  | case1 j h he =>
    intro hall
    have heD : (rs.getD j default).error = "" := by
      rw [getD_eq_get rs j default h]
      exact he
    exact absurd heD (hall j (le_refl j) h)
  | case2 j h he ih =>
    intro hall
    rw [firstSuccFrom.eq_def]
    simp only [List.get_eq_getElem] at he
    simp [h, he]
    exact ih (fun m hm1 hm2 => hall m (by omega) hm2)
  | case3 j h =>
    intro hall
    rw [firstSuccFrom.eq_def]
    simp [h]

theorem firstSuccFrom_succ (rs : List BuildResult) (j m : Nat)
    (h : firstSuccFrom rs j = some m) :
    m < rs.length ∧ (rs.getD m default).error = "" := by
  induction j using firstSuccFrom.induct rs with
  | case1 j hlt he =>
    rw [firstSuccFrom.eq_def] at h
    simp only [List.get_eq_getElem] at he
    simp [hlt, he] at h
    subst h
    refine ⟨hlt, ?_⟩
    rw [getD_eq_get rs j default hlt]
    simp only [List.get_eq_getElem]
    exact he
  | case2 j hlt he ih =>
    rw [firstSuccFrom.eq_def] at h
    simp only [List.get_eq_getElem] at he
    simp [hlt, he] at h
    exact ih h
  | case3 j hlt =>
    rw [firstSuccFrom.eq_def] at h
    simp [hlt] at h

/-- C1: after the diff pass of `Run` over a newest-to-oldest result sequence
whose `SizeDiff` fields start at zero, every successful result at position
`i` has `SizeDiff = ImageSize[i] - ImageSize[j]` where `j` is the smallest
index `> i` holding a successful result; if no such `j` exists its
`SizeDiff` is zero; failed results are never used as the partner `j` and
their own `SizeDiff` stays zero. -/
theorem c1_diff_pass (rs : List BuildResult)
    (h0 : ∀ r ∈ rs, r.sizeDiff = 0) (i : Nat) (hi : i < rs.length) :
    (computeDiffs rs).length = rs.length ∧
    ((rs.getD i default).error ≠ "" →
      ((computeDiffs rs).getD i default).sizeDiff = 0) ∧
    ((rs.getD i default).error = "" →
      ∀ j, i < j → j < rs.length → (rs.getD j default).error = "" →
        (∀ m, i < m → m < j → (rs.getD m default).error ≠ "") →
        ((computeDiffs rs).getD i default).sizeDiff =
          (rs.getD i default).imageSize - (rs.getD j default).imageSize) ∧
    ((rs.getD i default).error = "" →
      (∀ j, i < j → j < rs.length → (rs.getD j default).error ≠ "") →
      ((computeDiffs rs).getD i default).sizeDiff = 0) := by
  have hmem : rs.getD i default ∈ rs := by
    rw [getD_eq_get rs i default hi]
    exact rs.get_mem _ _
  have hzero : (rs.getD i default).sizeDiff = 0 := h0 _ hmem
  refine ⟨computeDiffs_length rs, ?_, ?_, ?_⟩
  · intro herr
    rw [computeDiffs_getD rs i hi, expectedAt]
    simp only [if_pos herr]
    exact hzero
  · intro hsucc j hij hj hjsucc hmin
    rw [computeDiffs_getD rs i hi, expectedAt]
    have hne : ¬ (rs.getD i default).error ≠ "" := fun hcon => hcon hsucc
    rw [if_neg hne]
    rw [firstSuccFrom_is_some rs j hj hjsucc (i + 1) (by omega)
      (fun m hm1 hm2 => hmin m (by omega) hm2)]
  · intro hsucc hnone
    rw [computeDiffs_getD rs i hi, expectedAt]
    have hne : ¬ (rs.getD i default).error ≠ "" := fun hcon => hcon hsucc
    rw [if_neg hne]
    rw [firstSuccFrom_is_none rs (i + 1)
      (fun m hm1 hm2 => hnone m (by omega) hm2 )]
    exact hzero

/-- Witness for C1, instantiating it at Scenario A of the spec:
`[p0 (100MB), p1 (100MB, failed), p2 (80MB)]` gives `p0.SizeDiff = +20MB`
(partner `j = 2`, skipping failed `p1`), `p1.SizeDiff = 0` (failed), and
`p2.SizeDiff = 0` (no older successful result). -/
theorem c1_diff_pass_witness :
    (∀ r ∈ scenA, r.sizeDiff = 0) ∧
    ((computeDiffs scenA).getD 0 default).sizeDiff =
      (scenA.getD 0 default).imageSize - (scenA.getD 2 default).imageSize ∧
    ((computeDiffs scenA).getD 1 default).sizeDiff = 0 ∧
    ((computeDiffs scenA).getD 2 default).sizeDiff = 0 := by
  have h0 : ∀ r ∈ scenA, r.sizeDiff = 0 := by decide
  refine ⟨h0, ?_, ?_, ?_⟩
  · exact (c1_diff_pass scenA h0 0 (by decide)).2.2.1 (by decide) 2 (by decide)
      (by decide) (by decide)
      (by
        intro m hm1 hm2
        have hm : m = 1 := by omega
        subst hm
        decide)
  · exact (c1_diff_pass scenA h0 1 (by decide)).2.1 (by decide)
  · exact (c1_diff_pass scenA h0 2 (by decide)).2.2.2 (by decide)
      (by
        intro j hj1 hj2
        have hl : scenA.length = 3 := rfl
        omega)

theorem getCommitsGo_eq (sinceTime untilTime : Option Int) (maxC : Int) :
    ∀ (stream : List CommitInfo) (seen : List String) (count : Nat),
      getCommitsGo sinceTime untilTime maxC stream seen count =
        capCommits maxC count
          ((dedupByHash seen stream).filter
            (fun c => keepByDate sinceTime untilTime c.date)) := by
  intro stream
  induction stream with
  | nil =>
    intro seen count
    simp [getCommitsGo, dedupByHash, capCommits]
  | cons c rest ih =>
    intro seen count
    rw [getCommitsGo, dedupByHash]
    by_cases hseen : c.hash ∈ seen
    · simp only [if_pos hseen]
      exact ih seen count
    · simp only [if_neg hseen]
      by_cases hdate : keepByDate sinceTime untilTime c.date
      · have hdate' : (!keepByDate sinceTime untilTime c.date) = false := by
          simp [hdate]
        rw [if_neg (by simp [hdate'])]
        rw [List.filter_cons_of_pos (by simpa using hdate)]
        by_cases hcap : 0 < maxC ∧ maxC ≤ (count : Int)
        · rw [if_pos hcap]
          rw [ih (c.hash :: seen) count]
          unfold capCommits
          rw [if_pos hcap.1, if_pos hcap.1]
          have hz : maxC.toNat - count = 0 := by omega
          rw [hz]
          simp
        · rw [if_neg hcap]
          rw [ih (c.hash :: seen) (count + 1)]
          unfold capCommits
          by_cases hpos : 0 < maxC
          · rw [if_pos hpos, if_pos hpos]
            have hcount : (count : Int) < maxC := by
              rcases not_and_or.mp hcap with h | h
              · exact absurd hpos h
              · omega
            have htake : maxC.toNat - count = (maxC.toNat - (count + 1)) + 1 := by
              omega
            rw [htake]
            rfl
          · rw [if_neg hpos, if_neg hpos]
      · have hdate' : (!keepByDate sinceTime untilTime c.date) = true := by
          simp [hdate]
        rw [if_pos (by simp [hdate'])]
        rw [List.filter_cons_of_neg (by simpa using hdate)]
        exact ih (c.hash :: seen) count

theorem dedupByHash_nodup :
    ∀ (stream : List CommitInfo) (seen : List String),
      ((dedupByHash seen stream).map CommitInfo.hash).Nodup ∧
      (∀ h ∈ (dedupByHash seen stream).map CommitInfo.hash, h ∉ seen) := by
  intro stream
  induction stream with
  | nil => intro seen; simp [dedupByHash]
  | cons c rest ih =>
    intro seen
    rw [dedupByHash]
    by_cases hseen : c.hash ∈ seen
    · simp only [if_pos hseen]
      exact ih seen
    · simp only [if_neg hseen]
      obtain ⟨hnd, hdisj⟩ := ih (c.hash :: seen)
      refine ⟨?_, ?_⟩
      · simp only [List.map_cons, List.nodup_cons]
        refine ⟨?_, hnd⟩
        intro hmem
        exact hdisj c.hash hmem (by simp)
      · intro h hmem
        simp only [List.map_cons, List.mem_cons] at hmem
        rcases hmem with hEq | hmem
        · subst hEq
          exact hseen
        · intro hcon
          exact hdisj h hmem (by simp [hcon])

/-- C6: for all date bounds, cap and input streams, the Point Selector
output is duplicate-free by commit hash, has length at most `MaxCommits`
when that cap is positive, and equals the capped date-filtered
first-occurrence de-duplication of the stream — the cap applies to retained
points, after date filtering. -/
theorem c6_selector (sinceTime untilTime : Option Int) (maxC : Int)
    (stream : List CommitInfo) :
    ((getCommits sinceTime untilTime maxC stream).map CommitInfo.hash).Nodup ∧
    (0 < maxC →
      (getCommits sinceTime untilTime maxC stream).length ≤ maxC.toNat) ∧
    getCommits sinceTime untilTime maxC stream =
      capCommits maxC 0
        ((dedupByHash [] stream).filter
          (fun c => keepByDate sinceTime untilTime c.date)) := by
  have hEq := getCommitsGo_eq sinceTime untilTime maxC stream [] 0
  refine ⟨?_, ?_, hEq⟩
  · rw [getCommits, hEq]
    have hsub : List.Sublist
        (capCommits maxC 0
          ((dedupByHash [] stream).filter
            (fun c => keepByDate sinceTime untilTime c.date)))
        (dedupByHash [] stream) := by
      unfold capCommits
      split
      · exact (List.take_sublist _ _).trans (List.filter_sublist _)
      · exact List.filter_sublist _
    exact ((dedupByHash_nodup stream []).1).sublist (hsub.map CommitInfo.hash)
  · intro hpos
    rw [getCommits, hEq]
    unfold capCommits
    rw [if_pos hpos]
    calc (List.take (maxC.toNat - 0) _).length ≤ maxC.toNat - 0 :=
          List.length_take_le _ _
      _ ≤ maxC.toNat := by omega

/-- Witness for C6 at a concrete input: duplicate hash `a`, one commit
outside the date window, cap 1. -/
theorem c6_selector_witness :
    ((getCommits (some 0) (some 10) 1
        [⟨"a", "m", "x", 5⟩, ⟨"a", "m", "x", 5⟩, ⟨"b", "m", "x", 20⟩,
         ⟨"d", "m", "x", 6⟩, ⟨"e", "m", "x", 7⟩]).map CommitInfo.hash).Nodup ∧
    (getCommits (some 0) (some 10) 1
        [⟨"a", "m", "x", 5⟩, ⟨"a", "m", "x", 5⟩, ⟨"b", "m", "x", 20⟩,
         ⟨"d", "m", "x", 6⟩, ⟨"e", "m", "x", 7⟩]).length ≤ 1 :=
  ⟨(c6_selector (some 0) (some 10) 1 _).1,
   (c6_selector (some 0) (some 10) 1 _).2.1 (by decide)⟩

/-- Counterexample to C7 as stated: with `since = 0`, `until = 10`, a point
whose author timestamp equals the until bound is retained by `getCommits`,
while the claim says it is excluded (`t < until` fails at `t = until`). -/
theorem c7_counterexample :
    getCommits (some 0) (some 10) 0 [⟨"h", "m", "a", 10⟩] =
      [⟨"h", "m", "a", 10⟩] ∧ ¬ ((10 : Int) < 10) := by
  constructor
  · decide
  · omega

/-- C7 (amended): the Point Selector's date filter is inclusive at both
bounds: with both bounds configured a point is retained exactly when
`since ≤ t ≤ until` (the code drops a point only when `t` is strictly
before `since` or strictly after `until`). -/
theorem c7_date_filter (s u t : Int) :
    (keepByDate (some s) (some u) t = true ↔ s ≤ t ∧ t ≤ u) ∧
    ∀ (c : CommitInfo), c.date = t →
      getCommits (some s) (some u) 0 [c] =
        if s ≤ t ∧ t ≤ u then [c] else [] := by
  have hiff : keepByDate (some s) (some u) t = true ↔ s ≤ t ∧ t ≤ u := by
    simp only [keepByDate, Bool.and_eq_true, Bool.not_eq_true']
    constructor
    · intro ⟨h1, h2⟩
      simp only [decide_eq_false_iff_not] at h1 h2
      omega
    · intro ⟨h1, h2⟩
      simp only [decide_eq_false_iff_not]
      omega
  refine ⟨hiff, ?_⟩
  intro c hc
  subst hc
  rw [getCommits, getCommitsGo]
  simp only [List.not_mem_nil, if_false]
  by_cases hk : keepByDate (some s) (some u) c.date = true
  · rw [if_neg (by simp [hk])]
    rw [if_neg (by omega)]
    rw [if_pos (hiff.mp hk)]
    rfl
  · have hk' : keepByDate (some s) (some u) c.date = false := by
      simpa using hk
    rw [if_pos (by simp [hk'])]
    rw [if_neg (fun hcon => absurd (hiff.mpr hcon) (by simp [hk']))]
    rfl

theorem drop_cons_facts (ds : List BuildResult) (i : Nat) (c : BuildResult)
    (l' : List BuildResult) (hl : ds.drop i = c :: l') :
    i < ds.length ∧ ds.getD i default = c ∧ ds.drop (i + 1) = l' := by
  have hlen := congrArg List.length hl
  rw [List.length_drop] at hlen
  simp at hlen
  have hi : i < ds.length := by omega
  refine ⟨hi, ?_, ?_⟩
  · have h1 : (ds.drop i).head? = some c := by rw [hl]; rfl
    rw [List.head?_drop] at h1
    rw [List.getD_eq_getElem?_getD, h1]
    rfl
  · have h2 : ds.drop (i + 1) = (ds.drop i).tail := by rw [List.tail_drop]
    rw [h2, hl]
    rfl

theorem findBloatGo_inv (ds : List BuildResult) :
    ∀ (l : List BuildResult) (i : Nat) (maxInc : Int)
      (best : Option (Nat × BuildResult)),
      ds.drop i = l →
      0 ≤ maxInc →
      (best = none → maxInc = 0) →
      (∀ k r, best = some (k, r) → k < i ∧ k < ds.length ∧
          ds.getD k default = r ∧ r.error = "" ∧ r.sizeDiff = maxInc ∧
          0 < maxInc ∧
          (∀ j, j < k → (ds.getD j default).error = "" →
            (ds.getD j default).sizeDiff < maxInc)) →
      (∀ j, j < i → j < ds.length → (ds.getD j default).error = "" →
          (ds.getD j default).sizeDiff ≤ maxInc) →
      ((∀ k r, findBloatGo l i maxInc best = some (k, r) →
          k < ds.length ∧ ds.getD k default = r ∧ r.error = "" ∧
          0 < r.sizeDiff ∧
          (∀ j, j < k → (ds.getD j default).error = "" →
            (ds.getD j default).sizeDiff < r.sizeDiff) ∧
          (∀ j, j < ds.length → (ds.getD j default).error = "" →
            (ds.getD j default).sizeDiff ≤ r.sizeDiff)) ∧
       (findBloatGo l i maxInc best = none →
          ∀ j, j < ds.length → (ds.getD j default).error = "" →
            (ds.getD j default).sizeDiff ≤ 0)) := by
  intro l
  induction l with
  | nil =>
    intro i maxInc best hdrop hpos hnone hbest hproc
    have hlen := congrArg List.length hdrop
    rw [List.length_drop] at hlen
    simp at hlen
    constructor
    · intro k r hres
      simp only [findBloatGo] at hres
      obtain ⟨hki, hkl, hgd, herr, hdiff, hmaxpos, hprev⟩ := hbest k r hres
      refine ⟨hkl, hgd, herr, by omega, ?_, ?_⟩
      · intro j hj hje
        have := hprev j hj hje
        omega
      · intro j hj hje
        have := hproc j (by omega) hj hje
        omega
    · intro hres
      simp only [findBloatGo] at hres
      have hm0 : maxInc = 0 := hnone hres
      intro j hj hje
      have := hproc j (by omega) hj hje
      omega
  | cons c l' ih =>
    intro i maxInc best hdrop hpos hnone hbest hproc
    obtain ⟨hi, hgdi, hdrop'⟩ := drop_cons_facts ds i c l' hdrop
    simp only [findBloatGo]
    by_cases hc : c.error = "" ∧ maxInc < c.sizeDiff
    · rw [if_pos hc]
      exact ih (i + 1) c.sizeDiff (some (i, c)) hdrop' (by omega)
        (by intro hcon; exact Option.noConfusion hcon)
        (by
          intro k r hkr
          simp only [Option.some.injEq, Prod.mk.injEq] at hkr
          obtain ⟨hk1, hk2⟩ := hkr
          subst hk1
          subst hk2
          refine ⟨by omega, hi, hgdi, hc.1, rfl, by omega, ?_⟩
          intro j hj hje
          have := hproc j (by omega) (by omega) hje
          omega)
        (by
          intro j hj hjl hje
          rcases Nat.lt_or_ge j i with hji | hji
          · have := hproc j hji hjl hje
            omega
          · have hjEq : j = i := by omega
            subst hjEq
            rw [hgdi])
    · rw [if_neg hc]
      exact ih (i + 1) maxInc best hdrop' hpos hnone
        (by
          intro k r hkr
          obtain ⟨hki, rest⟩ := hbest k r hkr
          exact ⟨by omega, rest⟩)
        (by
          intro j hj hjl hje
          rcases Nat.lt_or_ge j i with hji | hji
          · exact hproc j hji hjl hje
          · have hjEq : j = i := by omega
            subst hjEq
            rw [hgdi]
            rw [hgdi] at hje
            by_contra hgt
            exact hc ⟨hje, by omega⟩)

theorem findOptGo_inv (ds : List BuildResult) :
    ∀ (l : List BuildResult) (i : Nat) (maxDec : Int)
      (best : Option (Nat × BuildResult)),
      ds.drop i = l →
      maxDec ≤ 0 →
      (best = none → maxDec = 0) →
      (∀ k r, best = some (k, r) → k < i ∧ k < ds.length ∧
          ds.getD k default = r ∧ r.error = "" ∧ r.sizeDiff = maxDec ∧
          maxDec < 0 ∧
          (∀ j, j < k → (ds.getD j default).error = "" →
            maxDec < (ds.getD j default).sizeDiff)) →
      (∀ j, j < i → j < ds.length → (ds.getD j default).error = "" →
          maxDec ≤ (ds.getD j default).sizeDiff) →
      ((∀ k r, findOptGo l i maxDec best = some (k, r) →
          k < ds.length ∧ ds.getD k default = r ∧ r.error = "" ∧
          r.sizeDiff < 0 ∧
          (∀ j, j < k → (ds.getD j default).error = "" →
            r.sizeDiff < (ds.getD j default).sizeDiff) ∧
          (∀ j, j < ds.length → (ds.getD j default).error = "" →
            r.sizeDiff ≤ (ds.getD j default).sizeDiff)) ∧
       (findOptGo l i maxDec best = none →
          ∀ j, j < ds.length → (ds.getD j default).error = "" →
            0 ≤ (ds.getD j default).sizeDiff)) := by
  intro l
  induction l with
  | nil =>
    intro i maxDec best hdrop hpos hnone hbest hproc
    have hlen := congrArg List.length hdrop
    rw [List.length_drop] at hlen
    simp at hlen
    constructor
    · intro k r hres
      simp only [findOptGo] at hres
      obtain ⟨hki, hkl, hgd, herr, hdiff, hmaxneg, hprev⟩ := hbest k r hres
      refine ⟨hkl, hgd, herr, by omega, ?_, ?_⟩
      · intro j hj hje
        have := hprev j hj hje
        omega
      · intro j hj hje
        have := hproc j (by omega) hj hje
        omega
    · intro hres
      simp only [findOptGo] at hres
      have hm0 : maxDec = 0 := hnone hres
      intro j hj hje
      have := hproc j (by omega) hj hje
      omega
  | cons c l' ih =>
    intro i maxDec best hdrop hpos hnone hbest hproc
    obtain ⟨hi, hgdi, hdrop'⟩ := drop_cons_facts ds i c l' hdrop
    simp only [findOptGo]
    by_cases hc : c.error = "" ∧ c.sizeDiff < maxDec
    · rw [if_pos hc]
      exact ih (i + 1) c.sizeDiff (some (i, c)) hdrop' (by omega)
        (by intro hcon; exact Option.noConfusion hcon)
        (by
          intro k r hkr
          simp only [Option.some.injEq, Prod.mk.injEq] at hkr
          obtain ⟨hk1, hk2⟩ := hkr
          subst hk1
          subst hk2
          refine ⟨by omega, hi, hgdi, hc.1, rfl, by omega, ?_⟩
          intro j hj hje
          have := hproc j (by omega) (by omega) hje
          omega)
        (by
          intro j hj hjl hje
          rcases Nat.lt_or_ge j i with hji | hji
          · have := hproc j hji hjl hje
            omega
          · have hjEq : j = i := by omega
            subst hjEq
            rw [hgdi])
    · rw [if_neg hc]
      exact ih (i + 1) maxDec best hdrop' hpos hnone
        (by
          intro k r hkr
          obtain ⟨hki, rest⟩ := hbest k r hkr
          exact ⟨by omega, rest⟩)
        (by
          intro j hj hjl hje
          rcases Nat.lt_or_ge j i with hji | hji
          · exact hproc j hji hjl hje
          · have hjEq : j = i := by omega
            subst hjEq
            rw [hgdi]
            rw [hgdi] at hje
            by_contra hgt
            exact hc ⟨hje, by omega⟩)

theorem expectedAt_error (rs : List BuildResult) (k : Nat) :
    (expectedAt rs k).error = (rs.getD k default).error := by
  rw [expectedAt]
  by_cases he : (rs.getD k default).error ≠ ""
  · rw [if_pos he]
  · rw [if_neg he]
    cases firstSuccFrom rs (k + 1) with
    | none => rfl
    | some j => rfl

theorem two_le_filter_length (rs : List BuildResult) :
    ∀ (k j : Nat), k < j → j < rs.length →
      (rs.getD k default).error = "" → (rs.getD j default).error = "" →
      2 ≤ (rs.filter (fun r => r.error == "")).length := by
  induction rs with
  | nil =>
    intro k j h1 h2 _ _
    simp at h2
  | cons r rest ih =>
    intro k j h1 h2 hk hj
    rcases j with _ | j'
    · omega
    have h2' : j' < rest.length := by
      simp only [List.length_cons] at h2
      omega
    have hj' : (rest.getD j' default).error = "" := hj
    rcases k with _ | k'
    · have hr : r.error = "" := hk
      have hmem : rest.getD j' default ∈ rest := by
        rw [getD_eq_get rest j' default h2']
        exact rest.get_mem _ _
      have hmemf : rest.getD j' default ∈ rest.filter (fun r => r.error == "") :=
        List.mem_filter.mpr ⟨hmem, by simpa using hj'⟩
      have hpos : 0 < (rest.filter (fun r => r.error == "")).length :=
        List.length_pos_of_mem hmemf
      simp only [List.filter_cons, hr]
      simp only [beq_self_eq_true, if_true, List.length_cons]
      omega
    · have hk' : (rest.getD k' default).error = "" := hk
      have hge := ih k' j' (by omega) h2' hk' hj'
      by_cases hp : (r.error == "") = true
      · simp only [List.filter_cons, hp, if_true, List.length_cons]
        omega
      · simp only [List.filter_cons, hp, if_false]
        exact hge

theorem few_succ_all_zero (rs : List BuildResult)
    (h0 : ∀ r ∈ rs, r.sizeDiff = 0)
    (hlt : (rs.filter (fun r => r.error == "")).length < 2) :
    ∀ k, k < rs.length → ((computeDiffs rs).getD k default).error = "" →
      ((computeDiffs rs).getD k default).sizeDiff = 0 := by
  intro k hk hke
  rw [computeDiffs_getD rs k hk] at hke ⊢
  have hkerr : (rs.getD k default).error = "" := by
    rw [← expectedAt_error rs k]
    exact hke
  rw [expectedAt]
  have hne : ¬ (rs.getD k default).error ≠ "" := fun hcon => hcon hkerr
  rw [if_neg hne]
  cases hfs : firstSuccFrom rs (k + 1) with
  | none =>
    exact h0 _ (by
      rw [getD_eq_get rs k default hk]
      exact rs.get_mem _ _)
  | some j =>
    exfalso
    obtain ⟨hjl, hjerr⟩ := firstSuccFrom_succ rs (k + 1) j hfs
    have hkj : k + 1 ≤ j := firstSuccFrom_ge rs (k + 1) j hfs
    have h2 := two_le_filter_length rs k j (by omega) hjl hkerr hjerr
    omega

/-- C8: over a completed (diff-passed) result sequence, `findBloatCommit`
returns the successful result with the single largest strictly positive
`SizeDiff` (ties resolved by first occurrence: every earlier successful
result is strictly below it) or `none` when no successful result has a
positive delta; `findOptimizationCommit` is the mirror for the largest
strictly negative delta; and a sequence with fewer than two successful
results yields neither fact (`none`, not an error). -/
theorem c8_insights (rs : List BuildResult)
    (h0 : ∀ r ∈ rs, r.sizeDiff = 0) :
    (∀ k r, findBloatCommit (computeDiffs rs) = some (k, r) →
        k < (computeDiffs rs).length ∧
        (computeDiffs rs).getD k default = r ∧ r.error = "" ∧
        0 < r.sizeDiff ∧
        (∀ j, j < k → ((computeDiffs rs).getD j default).error = "" →
            ((computeDiffs rs).getD j default).sizeDiff < r.sizeDiff) ∧
        (∀ j, j < (computeDiffs rs).length →
            ((computeDiffs rs).getD j default).error = "" →
            ((computeDiffs rs).getD j default).sizeDiff ≤ r.sizeDiff)) ∧
    (findBloatCommit (computeDiffs rs) = none →
        ∀ j, j < (computeDiffs rs).length →
          ((computeDiffs rs).getD j default).error = "" →
          ((computeDiffs rs).getD j default).sizeDiff ≤ 0) ∧
    (∀ k r, findOptimizationCommit (computeDiffs rs) = some (k, r) →
        k < (computeDiffs rs).length ∧
        (computeDiffs rs).getD k default = r ∧ r.error = "" ∧
        r.sizeDiff < 0 ∧
        (∀ j, j < k → ((computeDiffs rs).getD j default).error = "" →
            r.sizeDiff < ((computeDiffs rs).getD j default).sizeDiff) ∧
        (∀ j, j < (computeDiffs rs).length →
            ((computeDiffs rs).getD j default).error = "" →
            r.sizeDiff ≤ ((computeDiffs rs).getD j default).sizeDiff)) ∧
    (findOptimizationCommit (computeDiffs rs) = none →
        ∀ j, j < (computeDiffs rs).length →
          ((computeDiffs rs).getD j default).error = "" →
          0 ≤ ((computeDiffs rs).getD j default).sizeDiff) ∧
    ((rs.filter (fun r => r.error == "")).length < 2 →
        findBloatCommit (computeDiffs rs) = none ∧
        findOptimizationCommit (computeDiffs rs) = none) := by
  have hB := findBloatGo_inv (computeDiffs rs) (computeDiffs rs) 0 0 none
    (List.drop_zero _) (le_refl 0) (fun _ => rfl)
    (fun k r hcon => Option.noConfusion hcon)
    (fun j hj _ _ => absurd hj (by omega))
  have hO := findOptGo_inv (computeDiffs rs) (computeDiffs rs) 0 0 none
    (List.drop_zero _) (le_refl 0) (fun _ => rfl)
    (fun k r hcon => Option.noConfusion hcon)
    (fun j hj _ _ => absurd hj (by omega))
  refine ⟨hB.1, hB.2, hO.1, hO.2, ?_⟩
  intro hlt
  have hz := few_succ_all_zero rs h0 hlt
  have hlen : (computeDiffs rs).length = rs.length := computeDiffs_length rs
  constructor
  · cases hres : findBloatCommit (computeDiffs rs) with
    | none => rfl
    | some p =>
      exfalso
      obtain ⟨hkl, hgd, herr, hpos, _⟩ := hB.1 p.1 p.2 hres
      have := hz p.1 (by omega) (by rw [hgd]; exact herr)
      rw [hgd] at this
      omega
  · cases hres : findOptimizationCommit (computeDiffs rs) with
    | none => rfl
    | some p =>
      exfalso
      obtain ⟨hkl, hgd, herr, hneg, _⟩ := hO.1 p.1 p.2 hres
      have := hz p.1 (by omega) (by rw [hgd]; exact herr)
      rw [hgd] at this
      omega

/-- Witness for C8 at Scenario A (one bloat candidate, no optimization
candidate, and the fewer-than-two-successes clause instantiated). -/
theorem c8_insights_witness :
    (∀ r ∈ scenA, r.sizeDiff = 0) ∧
    ((scenA.filter (fun r => r.error == "")).length < 2 →
      findBloatCommit (computeDiffs scenA) = none ∧
      findOptimizationCommit (computeDiffs scenA) = none) :=
  ⟨by decide, (c8_insights scenA (by decide)).2.2.2.2⟩

theorem append_ne_empty (s t : String) (hs : s ≠ "") : s ++ t ≠ "" := by
  intro h
  apply hs
  have hd := congrArg String.data h
  simp only [String.data_append] at hd
  have hd' : s.data ++ t.data = [] := hd
  have h1 : s.data = [] := (List.append_eq_nil.mp hd').1
  cases s with
  | mk data =>
    simp only at h1
    rw [h1]

/-- Counterexample to C5 as stated: with a build that succeeds after 5
seconds and only the image inspection failing, `analyzeCommit` returns a
failed result (non-empty `Error`) whose `BuildTime` is the measured 5
seconds — not zero as the claim requires of all numeric fields. -/
theorem c5_counterexample :
    (analyzeCommit ⟨"h", "m", "a", 0⟩
      ⟨none, none, none, 5, .error "boom", .error "x"⟩).error ≠ "" ∧
    (analyzeCommit ⟨"h", "m", "a", 0⟩
      ⟨none, none, none, 5, .error "boom", .error "x"⟩).buildTime ≠ 0 := by
  constructor
  · decide
  · decide

/-- C5 (amended): every failure path of `analyzeCommit` (worktree, checkout,
build, inspect) yields a non-empty `Error` with `ImageSize = 0`,
`LayerCount = 0`, no layers and zero `SizeDiff`; `BuildTime` is zero for
worktree, checkout and build failures, but an inspect failure occurs after
the build duration was measured, so `BuildTime` then holds the elapsed
build time. -/
theorem c5_failure_zeroing (c : CommitInfo) (o : StepOracle) :
    ((analyzeCommit c o).error ≠ "" →
      (analyzeCommit c o).imageSize = 0 ∧ (analyzeCommit c o).layerCount = 0 ∧
      (analyzeCommit c o).layers = [] ∧ (analyzeCommit c o).sizeDiff = 0) ∧
    ((o.worktreeErr ≠ none ∨ o.checkoutErr ≠ none ∨ o.buildErr ≠ none) →
      (analyzeCommit c o).error ≠ "" ∧ (analyzeCommit c o).buildTime = 0) ∧
    (o.worktreeErr = none → o.checkoutErr = none → o.buildErr = none →
      ∀ e, o.inspect = Except.error e →
        (analyzeCommit c o).error = "failed to inspect image: " ++ e ∧
        (analyzeCommit c o).buildTime = o.elapsed ∧
        (analyzeCommit c o).imageSize = 0 ∧
        (analyzeCommit c o).layerCount = 0 ∧
        (analyzeCommit c o).layers = []) := by
  obtain ⟨we, ce, be, el, insp, hist⟩ := o
  refine ⟨?_, ?_, ?_⟩
  · cases we with
    | some e => intro _; exact ⟨rfl, rfl, rfl, rfl⟩
    | none =>
      cases ce with
      | some e => intro _; exact ⟨rfl, rfl, rfl, rfl⟩
      | none =>
        cases be with
        | some e => intro _; exact ⟨rfl, rfl, rfl, rfl⟩
        | none =>
          cases insp with
          | error e => intro _; exact ⟨rfl, rfl, rfl, rfl⟩
          | ok info =>
            cases hist with
            | error e => intro hcon; exact absurd rfl hcon
            | ok layersH => intro hcon; exact absurd rfl hcon
  · intro hd
    cases we with
    | some e => exact ⟨append_ne_empty _ e (by decide), rfl⟩
    | none =>
      cases ce with
      | some e => exact ⟨append_ne_empty _ e (by decide), rfl⟩
      | none =>
        cases be with
        | some e => exact ⟨append_ne_empty _ e (by decide), rfl⟩
        | none =>
          rcases hd with h | h | h <;> exact absurd rfl h
  · intro hwe hce hbe e hinsp
    simp only at hwe hce hbe hinsp
    subst hwe
    subst hce
    subst hbe
    subst hinsp
    exact ⟨rfl, rfl, rfl, rfl, rfl⟩

/-- Witness for C5 at a concrete checkout failure: the error is set and the
build time is zero. -/
theorem c5_failure_zeroing_witness :
    (analyzeCommit ⟨"h", "m", "a", 0⟩
      ⟨none, some "perm", none, 0, Except.error "e", Except.error "x"⟩).error ≠ "" ∧
    (analyzeCommit ⟨"h", "m", "a", 0⟩
      ⟨none, some "perm", none, 0, Except.error "e", Except.error "x"⟩).buildTime = 0 :=
  (c5_failure_zeroing ⟨"h", "m", "a", 0⟩
    ⟨none, some "perm", none, 0, Except.error "e", Except.error "x"⟩).2.1
    (Or.inr (Or.inl (by decide)))

/-- C2: for every run reaching the build loop, `Run` returns success no
matter which Build Steps fail; when the restoration checkout succeeds the
final worktree equals the captured pre-loop HEAD, and when it fails the
failure is surfaced as a warning in the log, never as the run's error. -/
theorem c2_restoration (verbose skipFailed : Bool) (originalHash : String)
    (commits : List CommitInfo) (oracle : CommitInfo → StepOracle)
    (restoreOk : Bool) (wt0 : String) (hne : commits ≠ []) :
    (run verbose skipFailed originalHash commits oracle restoreOk wt0).ret = none ∧
    (restoreOk = true →
      (run verbose skipFailed originalHash commits oracle restoreOk wt0).worktree =
        originalHash) ∧
    (restoreOk = false →
      "Warning: failed to restore original branch" ∈
        (run verbose skipFailed originalHash commits oracle restoreOk wt0).log) := by
  have hia : commits.isEmpty = false := by
    cases commits with
    | nil => exact absurd rfl hne
    | cons a l => rfl
  unfold run
  rw [if_neg (by simp [hia])]
  refine ⟨rfl, ?_, ?_⟩
  · intro hr
    simp [hr]
  · intro hr
    simp [hr]

/-- Witness for C2: a one-commit run whose build fails; with a successful
restoration the worktree ends at the captured original hash. -/
theorem c2_restoration_witness :
    (([⟨"c", "m", "a", 0⟩] : List CommitInfo) ≠ []) ∧
    (run true false "orig" [⟨"c", "m", "a", 0⟩]
      (fun _ => ⟨none, none, some "boom", 0, Except.error "e", Except.error "x"⟩)
      true "head").worktree = "orig" :=
  ⟨by decide,
   (c2_restoration true false "orig" [⟨"c", "m", "a", 0⟩]
      (fun _ => ⟨none, none, some "boom", 0, Except.error "e", Except.error "x"⟩)
      true "head" (by decide)).2.1 rfl⟩

theorem runLoop_results_indep (verbose : Bool)
    (oracle : CommitInfo → StepOracle) (s1 s2 : Bool) :
    ∀ (cs : List CommitInfo) (wt : String),
      (runLoop verbose s1 oracle cs wt).1 = (runLoop verbose s2 oracle cs wt).1 ∧
      (runLoop verbose s1 oracle cs wt).2.1 =
        (runLoop verbose s2 oracle cs wt).2.1 := by
  intro cs
  induction cs with
  | nil => intro wt; exact ⟨rfl, rfl⟩
  | cons c rest ih =>
    intro wt
    refine ⟨?_, ?_⟩
    · show analyzeCommit c (oracle c) ::
          (runLoop verbose s1 oracle rest (checkoutEffect c (oracle c) wt)).1 =
        analyzeCommit c (oracle c) ::
          (runLoop verbose s2 oracle rest (checkoutEffect c (oracle c) wt)).1
      rw [(ih _).1]
    · show (runLoop verbose s1 oracle rest (checkoutEffect c (oracle c) wt)).2.1 =
        (runLoop verbose s2 oracle rest (checkoutEffect c (oracle c) wt)).2.1
      exact (ih _).2

/-- C9: the `SkipFailed` flag never influences the accumulated result
sequence, the final worktree or the run's return value — for every
selector output and every build-outcome oracle the run with
`skipFailed = true` and with `skipFailed = false` agree on all of them
(only the printed diagnostics may differ). -/
theorem c9_skip_failed_noninterference (verbose : Bool) (originalHash : String)
    (commits : List CommitInfo) (oracle : CommitInfo → StepOracle)
    (restoreOk : Bool) (wt0 : String) :
    (run verbose true originalHash commits oracle restoreOk wt0).results =
      (run verbose false originalHash commits oracle restoreOk wt0).results ∧
    (run verbose true originalHash commits oracle restoreOk wt0).worktree =
      (run verbose false originalHash commits oracle restoreOk wt0).worktree ∧
    (run verbose true originalHash commits oracle restoreOk wt0).ret =
      (run verbose false originalHash commits oracle restoreOk wt0).ret := by
  by_cases hc : commits.isEmpty = true
  · simp [run, hc]
  · unfold run
    rw [if_neg hc, if_neg hc]
    refine ⟨?_, ?_, rfl⟩
    · show computeDiffs (runLoop verbose true oracle commits wt0).1 =
        computeDiffs (runLoop verbose false oracle commits wt0).1
      rw [(runLoop_results_indep verbose oracle true false commits wt0).1]
    · show (if restoreOk then originalHash
          else (runLoop verbose true oracle commits wt0).2.1) =
        (if restoreOk then originalHash
          else (runLoop verbose false oracle commits wt0).2.1)
      rw [(runLoop_results_indep verbose oracle true false commits wt0).2]

theorem findRegLoop_sound (cfg : BisectConfig) (f : Nat → BuildResult) (R : Nat) :
    ∀ (fuel left right : Nat) (best : Option Nat),
      right ≤ R →
      (∀ k, best = some k →
        (f k).error = "" ∧ exceedsThreshold cfg (f k) = true ∧ k ≤ R) →
      ∀ k, findRegLoop cfg f fuel left right best = some k →
        (f k).error = "" ∧ exceedsThreshold cfg (f k) = true ∧ k ≤ R := by
  intro fuel
  induction fuel with
  | zero =>
    intro left right best hr hbest k hres
    simp only [findRegLoop] at hres
    exact hbest k hres
  | succ fuel ih =>
    intro left right best hr hbest k hres
    simp only [findRegLoop] at hres
    by_cases hlr : left ≤ right
    · rw [if_pos hlr] at hres
      by_cases hf : (f ((left + right) / 2)).error ≠ ""
      · rw [if_pos hf] at hres
        exact ih ((left + right) / 2 + 1) right best hr hbest k hres
      · rw [if_neg hf] at hres
        have hmidr : (left + right) / 2 ≤ right := by omega
        by_cases hex : exceedsThreshold cfg (f ((left + right) / 2)) = true
        · rw [if_pos hex] at hres
          by_cases hm0 : (left + right) / 2 = 0
          · rw [if_pos hm0] at hres
            have hk : 0 = k := Option.some.inj hres
            subst hk
            rw [hm0] at hf hex
            exact ⟨not_ne_iff.mp hf, hex, by omega⟩
          · rw [if_neg hm0] at hres
            exact ih left ((left + right) / 2 - 1) (some ((left + right) / 2))
              (by omega)
              (fun k' hk' => by
                have hkk : (left + right) / 2 = k' := Option.some.inj hk'
                subst hkk
                exact ⟨not_ne_iff.mp hf, hex, by omega⟩)
              k hres
        · rw [if_neg hex] at hres
          exact ih ((left + right) / 2 + 1) right best hr hbest k hres
    · rw [if_neg hlr] at hres
      exact hbest k hres

/-- C3: whenever `FindRegression` returns a commit, that commit's probe
built successfully and its measured value exceeded the configured
threshold, and the reported hash, size and build time come from that probe
(so a failed build, treated as inconclusive, is never the reported
regression point); and when no probed point both builds and exceeds the
threshold in the range, `FindRegression` cannot return a commit (it reports
the `no regression found` error instead). -/
theorem c3_bisection (cfg : BisectConfig) (commits : List CommitInfo)
    (f : Nat → BuildResult) :
    (∀ res, findRegression cfg commits f = Except.ok res →
      2 ≤ commits.length ∧
      ∃ k, k < commits.length ∧ (f k).error = "" ∧
        exceedsThreshold cfg (f k) = true ∧
        res.commitHash = (commits.getD k default).hash ∧
        res.sizeMB = ((f k).imageSize : ℚ) / 1024 / 1024 ∧
        res.buildTime = (f k).buildTime) ∧
    ((∀ k, k < commits.length →
        ¬((f k).error = "" ∧ exceedsThreshold cfg (f k) = true)) →
      ∀ res, findRegression cfg commits f ≠ Except.ok res) := by
  have main : ∀ res, findRegression cfg commits f = Except.ok res →
      2 ≤ commits.length ∧
      ∃ k, k < commits.length ∧ (f k).error = "" ∧
        exceedsThreshold cfg (f k) = true ∧
        res.commitHash = (commits.getD k default).hash ∧
        res.sizeMB = ((f k).imageSize : ℚ) / 1024 / 1024 ∧
        res.buildTime = (f k).buildTime := by
    intro res hok
    unfold findRegression at hok
    by_cases h2 : commits.length < 2
    · rw [if_pos h2] at hok
      exact Except.noConfusion hok
    · rw [if_neg h2] at hok
      cases hloop : findRegLoop cfg f (commits.length + 1) 0
          (commits.length - 1) none with
      | none =>
        rw [hloop] at hok
        exact Except.noConfusion hok
      | some k =>
        rw [hloop] at hok
        obtain ⟨herr, hex, hkR⟩ := findRegLoop_sound cfg f (commits.length - 1)
          (commits.length + 1) 0 (commits.length - 1) none (le_refl _)
          (fun k' hk' => Option.noConfusion hk') k hloop
        have hres := Except.ok.inj hok
        refine ⟨by omega, k, by omega, herr, hex, ?_, ?_, ?_⟩
        · rw [← hres]
        · rw [← hres]
        · rw [← hres]
  refine ⟨main, ?_⟩
  intro hall res hok
  obtain ⟨h2, k, hk, herr, hex, _⟩ := main res hok
  exact hall k hk ⟨herr, hex⟩

/-- Witness for C3 at Scenario B: sizes 300, 320, 600, 650 MB with a 500 MB
threshold; the returned regression point is the commit with size 600 MB. -/
theorem c3_bisection_witness :
    2 ≤ commitsB.length ∧
    ∃ k, k < commitsB.length ∧ (fB k).error = "" ∧
      exceedsThreshold cfgB (fB k) = true ∧
      ({ commitHash := "c2", commitMessage := "m2".trim, author := "a", date := 2,
         sizeMB := 600, buildTime := 1 } : BisectResult).commitHash =
        (commitsB.getD k default).hash ∧
      ({ commitHash := "c2", commitMessage := "m2".trim, author := "a", date := 2,
         sizeMB := 600, buildTime := 1 } : BisectResult).sizeMB =
        ((fB k).imageSize : ℚ) / 1024 / 1024 ∧
      ({ commitHash := "c2", commitMessage := "m2".trim, author := "a", date := 2,
         sizeMB := 600, buildTime := 1 } : BisectResult).buildTime =
        (fB k).buildTime :=
  (c3_bisection cfgB commitsB fB).1
    { commitHash := "c2", commitMessage := "m2".trim, author := "a", date := 2,
      sizeMB := 600, buildTime := 1 } (by
        norm_num [findRegression, findRegLoop, commitsB, fB, sizesB, cfgB,
          exceedsThreshold, default, instInhabitedBuildResult])

theorem foldl_mapPut_notmem {α : Type} (key : α → String) (val : α → ℚ) :
    ∀ (l : List α) (m : String → Option ℚ) (k : String),
      k ∉ l.map key →
      l.foldl (fun m r => mapPut m (key r) (val r)) m k = m k := by
  intro l
  induction l with
  | nil => intro m k _; rfl
  | cons r rest ih =>
    intro m k hk
    simp only [List.map_cons, List.mem_cons, not_or] at hk
    show rest.foldl _ (mapPut m (key r) (val r)) k = m k
    rw [ih _ k hk.2]
    unfold mapPut
    rw [if_neg hk.1]

theorem foldl_mapPut_lookup {α : Type} (key : α → String) (val : α → ℚ) :
    ∀ (l : List α) (m : String → Option ℚ) (res : α),
      res ∈ l → (l.map key).Nodup →
      l.foldl (fun m r => mapPut m (key r) (val r)) m (key res) =
        some (val res) := by
  intro l
  induction l with
  | nil => intro m res h _; simp at h
  | cons r rest ih =>
    intro m res hmem hnd
    simp only [List.map_cons, List.nodup_cons] at hnd
    rcases List.mem_cons.mp hmem with hEq | hmem'
    · subst hEq
      show rest.foldl _ (mapPut m (key res) (val res)) (key res) =
        some (val res)
      rw [foldl_mapPut_notmem key val rest _ _ hnd.1]
      unfold mapPut
      rw [if_pos rfl]
    · show rest.foldl _ (mapPut m (key r) (val r)) (key res) = some (val res)
      exact ih _ res hmem' hnd.2

theorem sumFold (cmd : String) :
    ∀ (layers : List LayerInfo) (s0 : ℚ) (b0 : Bool),
      layers.foldl (fun p l =>
          if l.createdBy == cmd then (p.1 + l.sizeMB, true) else p) (s0, b0) =
        (s0 + ((layers.filter (fun l => l.createdBy == cmd)).map
            LayerInfo.sizeMB).sum,
         b0 || layers.any (fun l => l.createdBy == cmd)) := by
  intro layers
  induction layers with
  | nil =>
    intro s0 b0
    simp
  | cons l rest ih =>
    intro s0 b0
    by_cases hc : (l.createdBy == cmd) = true
    · show rest.foldl _ (if l.createdBy == cmd then (s0 + l.sizeMB, true)
          else (s0, b0)) = _
      rw [if_pos hc, ih (s0 + l.sizeMB) true]
      simp only [List.filter_cons, List.any_cons, hc, if_true, List.map_cons,
        List.sum_cons, Bool.true_or, Bool.or_true, Prod.mk.injEq]
      constructor
      · ring
      · simp
    · show rest.foldl _ (if l.createdBy == cmd then (s0 + l.sizeMB, true)
          else (s0, b0)) = _
      have hc' : (l.createdBy == cmd) = false := by simpa using hc
      rw [if_neg hc, ih s0 b0]
      simp [List.filter_cons, List.any_cons, hc']

set_option maxHeartbeats 1000000 in
/-- Counterexample to C4 as stated: a successful result whose layers hold
the identity `RUN x` twice (10 MB and 12 MB); `buildLayerComparison` puts
only the first occurrence's 10 MB in the cell, not the 22 MB sum the claim
requires. -/
theorem c4_counterexample :
    (match buildLayerComparison [dupLayerResult] with
     | some pr => (pr.2.headD ⟨"", fun _ => none⟩).sizeByCommit "aaaabbbb"
     | none => none) = some 10 ∧ (10 : ℚ) ≠ 10 + 12 := by
  constructor
  · decide
  · norm_num

set_option maxHeartbeats 2000000 in
/-- C4 (amended): for every result and identity, under distinct result keys
the registry-path `buildRegistryLayerComparison` cell holds the sum of the
sizes of all that result's layers with that identity (`-1` when absent),
while the git-path `buildLayerComparison` cell holds only the first
matching layer's size (`-1` when absent) — later duplicates are dropped
there. -/
theorem c4_layer_cells :
    (∀ (vrs : List RegistryResult) (res : RegistryResult) (cmd : String)
        (row : RegistryLayerComparison),
        res ∈ vrs →
        (vrs.map RegistryResult.tag).Nodup →
        row ∈ (buildRegistryLayerComparison vrs).2 →
        row.layerCommand = cmd →
        row.sizeByTag res.tag = some (sumCellValue cmd res)) ∧
    (∀ (vrs : List BuildResult) (res : BuildResult) (cmd : String)
        (pr : List String × List LayerComparison) (row : LayerComparison),
        res ∈ vrs →
        (vrs.map hashKey).Nodup →
        buildLayerComparison vrs = some pr →
        row ∈ pr.2 →
        row.layerCommand = cmd →
        row.sizeByCommit (hashKey res) = some (firstCellValue cmd res)) := by
  constructor
  · intro vrs res cmd row hmem hnd hrow hcmd
    cases vrs with
    | nil => simp at hmem
    | cons first rest =>
      unfold buildRegistryLayerComparison at hrow
      simp only [List.mem_map] at hrow
      obtain ⟨cmd', hcmd', hrowEq⟩ := hrow
      have hcmdEq : cmd' = cmd := by
        rw [← hrowEq] at hcmd
        exact hcmd
      subst hcmdEq
      rw [← hrowEq]
      have hbody : ∀ (m : String → Option ℚ) (r : RegistryResult),
          (if (r.layers.foldl (fun p l =>
              if l.createdBy == cmd' then (p.1 + l.sizeMB, true) else p)
              ((0 : ℚ), false)).2 then
            mapPut m r.tag (r.layers.foldl (fun p l =>
              if l.createdBy == cmd' then (p.1 + l.sizeMB, true) else p)
              ((0 : ℚ), false)).1
          else mapPut m r.tag (-1)) =
          mapPut m r.tag (sumCellValue cmd' r) := by
        intro m r
        rw [sumFold cmd' r.layers 0 false]
        unfold sumCellValue
        simp only [Bool.false_or, zero_add]
        by_cases ha : r.layers.any (fun l => l.createdBy == cmd') = true
        · rw [if_pos ha, if_pos ha]
        · rw [if_neg ha, if_neg ha]
      have hfold : (first :: rest).foldl (fun m r =>
            let cell := r.layers.foldl (fun p l =>
              if l.createdBy == cmd' then (p.1 + l.sizeMB, true) else p)
              ((0 : ℚ), false)
            if cell.2 then mapPut m r.tag cell.1 else mapPut m r.tag (-1))
            ((fun _ => none) : String → Option ℚ) =
          (first :: rest).foldl (fun m r => mapPut m r.tag (sumCellValue cmd' r))
            ((fun _ => none) : String → Option ℚ) :=
        List.foldl_ext _ _ _ (fun m r _ => hbody m r)
      show ((first :: rest).foldl (fun m r =>
          let cell := r.layers.foldl (fun p l =>
            if l.createdBy == cmd' then (p.1 + l.sizeMB, true) else p)
            ((0 : ℚ), false)
          if cell.2 then mapPut m r.tag cell.1 else mapPut m r.tag (-1))
          ((fun _ => none) : String → Option ℚ)) res.tag =
        some (sumCellValue cmd' res)
      rw [hfold]
      exact foldl_mapPut_lookup RegistryResult.tag (sumCellValue cmd')
        (first :: rest) ((fun _ => none) : String → Option ℚ) res hmem hnd
  · intro vrs res cmd pr row hmem hnd hpr hrow hcmd
    cases vrs with
    | nil => exact Option.noConfusion hpr
    | cons first rest =>
      unfold buildLayerComparison at hpr
      have hpr' := Option.some.inj hpr
      rw [← hpr'] at hrow
      simp only [List.mem_map] at hrow
      obtain ⟨cmd', hcmd', hrowEq⟩ := hrow
      have hcmdEq : cmd' = cmd := by
        rw [← hrowEq] at hcmd
        exact hcmd
      subst hcmdEq
      rw [← hrowEq]
      have hbody : ∀ (m : String → Option ℚ) (r : BuildResult),
          (match r.layers.find? (fun l => l.createdBy == cmd') with
           | some l => mapPut m (hashKey r) l.sizeMB
           | none => mapPut m (hashKey r) (-1)) =
          mapPut m (hashKey r) (firstCellValue cmd' r) := by
        intro m r
        unfold firstCellValue
        cases r.layers.find? (fun l => l.createdBy == cmd') with
        | none => rfl
        | some l => rfl
      have hfold : (first :: rest).foldl (fun m r =>
            match r.layers.find? (fun l => l.createdBy == cmd') with
            | some l => mapPut m (hashKey r) l.sizeMB
            | none => mapPut m (hashKey r) (-1))
            ((fun _ => none) : String → Option ℚ) =
          (first :: rest).foldl (fun m r =>
            mapPut m (hashKey r) (firstCellValue cmd' r))
            ((fun _ => none) : String → Option ℚ) :=
        List.foldl_ext _ _ _ (fun m r _ => hbody m r)
      show ((first :: rest).foldl (fun m r =>
          match r.layers.find? (fun l => l.createdBy == cmd') with
          | some l => mapPut m (hashKey r) l.sizeMB
          | none => mapPut m (hashKey r) (-1))
          ((fun _ => none) : String → Option ℚ)) (hashKey res) =
        some (firstCellValue cmd' res)
      rw [hfold]
      exact foldl_mapPut_lookup hashKey (firstCellValue cmd')
        (first :: rest) ((fun _ => none) : String → Option ℚ) res hmem hnd

/-- Witness for C4 (amended) at the duplicated-identity registry result:
the single row's cell for tag `v1` is the summed size, which is 22 MB. -/
theorem c4_layer_cells_witness :
    (regDupResult ∈ [regDupResult]) ∧
    (((buildRegistryLayerComparison [regDupResult]).2.headD
        ⟨"", fun _ => none⟩).sizeByTag "v1" =
      some (sumCellValue "RUN x" regDupResult)) ∧
    (sumCellValue "RUN x" regDupResult = (22 : ℚ)) := by
  have hrow : (buildRegistryLayerComparison [regDupResult]).2 =
      [(buildRegistryLayerComparison [regDupResult]).2.headD
        ⟨"", fun _ => none⟩] := by rfl
  refine ⟨List.mem_singleton_self _, ?_, ?_⟩
  · exact c4_layer_cells.1 [regDupResult] regDupResult "RUN x" _
      (List.mem_singleton_self _) (by decide)
      (by rw [hrow]; exact List.mem_singleton_self _) (by rfl)
  · norm_num [sumCellValue, regDupResult]

/-- C10 (code bug): on an empty successful-result list — e.g. a run in
which every Build Step failed, reaching `generateJSONReport` — the Go
expression `validResults[1:]` is out of bounds (`[1:0]`) and panics, so
`buildLayerComparison` does not return normally; the panic is the `none`
value of the embedding. -/
theorem c10_empty_input_panics : buildLayerComparison [] = none := rfl

/-- Witness for C7 (amended) at a point inside the window. -/
theorem c7_date_filter_witness :
    getCommits (some 0) (some 10) 0 [⟨"h", "m", "a", 5⟩] =
      (if (0 : Int) ≤ 5 ∧ (5 : Int) ≤ 10 then [⟨"h", "m", "a", 5⟩] else []) :=
  (c7_date_filter 0 10 5).2 ⟨"h", "m", "a", 5⟩ rfl

theorem analyzeCommit_sizeDiff (c : CommitInfo) (o : StepOracle) :
    (analyzeCommit c o).sizeDiff = 0 := by
  obtain ⟨we, ce, be, el, insp, hist⟩ := o
  cases we with
  | some e => rfl
  | none =>
    cases ce with
    | some e => rfl
    | none =>
      cases be with
      | some e => rfl
      | none =>
        cases insp with
        | error e => rfl
        | ok info =>
          cases hist with
          | error e => rfl
          | ok layersH => rfl

/-- Every result the build loop accumulates still has the zero `SizeDiff`
it was created with — the hypothesis under which the diff pass is run. -/
theorem runLoop_sizeDiff_zero (verbose skipFailed : Bool)
    (oracle : CommitInfo → StepOracle) :
    ∀ (cs : List CommitInfo) (wt : String) (r : BuildResult),
      r ∈ (runLoop verbose skipFailed oracle cs wt).1 → r.sizeDiff = 0 := by
  intro cs
  induction cs with
  | nil =>
    intro wt r h
    simp [runLoop] at h
  | cons c rest ih =>
    intro wt r h
    have hcons : (runLoop verbose skipFailed oracle (c :: rest) wt).1 =
        analyzeCommit c (oracle c) ::
          (runLoop verbose skipFailed oracle rest
            (checkoutEffect c (oracle c) wt)).1 := rfl
    rw [hcons] at h
    rcases List.mem_cons.mp h with hEq | hmem
    · rw [hEq]
      exact analyzeCommit_sizeDiff c (oracle c)
    · exact ih _ r hmem

end DTM
